import Mathlib

/-!
Verification of the scripture reference engine of `bible-hover`
(`src/parser.ts`, class `BibleParser`): the document parser
(`BibleParser.parse`), the reference resolver (`getVerses`,
`getVerseLine`, `parseRef`) and the static alias table.

The embedding works over `List Char` for the string algorithms.  The
JavaScript regular expressions used by the source are specialised to the
concrete patterns that appear there:

* `/^# (.+)/`          (book heading)
* `/^## Chapter (\d+)/` (chapter heading)
* `/^(\d+)\. (.+)/`     (verse line)
* `/(.+?)\s(\d+):(\d+)(?:-(\d+))?/` (reference, unanchored, lazy)

`.` matches every character except a JavaScript line terminator, `\d` is
an ASCII digit, `\s` is the JavaScript whitespace class.  `toLowerCase`
is modelled by ASCII lowercasing (all keys involved in the claims are
ASCII).  JavaScript `Map` objects keyed by strings/numbers are modelled
as association lists with insert-or-overwrite (`mapSet`), point update
(`mapModify`, for the source's in-place mutation of the object held in
the map) and lookup (`mapGet`).
-/

/-- JavaScript line terminators (the characters `.` does not match). -/
def isLineTerm (c : Char) : Bool :=
  c == '\n' || c == '\r' || c == '\u2028' || c == '\u2029'

/-- The JavaScript whitespace class `\s` (also the set removed by
`String.prototype.trim`). -/
def isSpaceJS (c : Char) : Bool :=
  c == ' ' || c == '\t' || c == '\n' || c == '\u000B' || c == '\u000C' ||
  c == '\r' || c == '\u00A0' || c == '\u1680' ||
  (0x2000 ≤ c.toNat && c.toNat ≤ 0x200A) ||
  c == '\u2028' || c == '\u2029' || c == '\u202F' || c == '\u205F' ||
  c == '\u3000' || c == '\uFEFF'

/-- `String.prototype.trim`: strip JavaScript whitespace at both ends. -/
def trimJS (l : List Char) : List Char :=
  ((l.dropWhile isSpaceJS).reverse.dropWhile isSpaceJS).reverse

/-- `trim` on packed strings. -/
def trimStr (s : String) : String :=
  String.mk (trimJS s.data)

/-- `String.prototype.toLowerCase`, for the ASCII strings the engine
handles. -/
def lowerStr (s : String) : String :=
  String.mk (s.data.map Char.toLower)

/-- `parseInt` on a non-empty run of ASCII digits. -/
def natOfDigits (l : List Char) : Nat :=
  l.foldl (fun n c => n * 10 + (c.toNat - '0'.toNat)) 0

/-- Match a literal character sequence at the front of a list, returning
the remainder on success. -/
def dropLit : List Char → List Char → Option (List Char)
  | [], l => some l
  | _ :: _, [] => none
  | p :: ps, c :: cs => if c = p then dropLit ps cs else none

/-- The regex `/^# (.+)/`: returns the group `(.+)`, the (non-empty)
maximal run of non-line-terminator characters after `"# "`. -/
def bookMatchL (l : List Char) : Option (List Char) :=
  match dropLit ['#', ' '] l with
  | some rest =>
    let g := rest.takeWhile (fun c => !(isLineTerm c))
    if g = [] then none else some g
  | none => none

/-- The regex `/^## Chapter (\d+)/`: returns the group `(\d+)`. -/
def chapterMatchL (l : List Char) : Option (List Char) :=
  match dropLit ['#', '#', ' ', 'C', 'h', 'a', 'p', 't', 'e', 'r', ' '] l with
  | some rest =>
    let d := rest.takeWhile Char.isDigit
    if d = [] then none else some d
  | none => none

/-- The regex `/^(\d+)\. (.+)/`: returns the groups `(\d+)` and `(.+)`.
The greedy `\d+` takes the maximal leading digit run (shorter runs are
followed by a digit, not `.`, so backtracking cannot succeed). -/
def verseMatchL (l : List Char) : Option (List Char × List Char) :=
  let d := l.takeWhile Char.isDigit
  if d = [] then none
  else
    match dropLit ['.', ' '] (l.dropWhile Char.isDigit) with
    | some rest =>
      let g := rest.takeWhile (fun c => !(isLineTerm c))
      if g = [] then none else some (d, g)
    | none => none

/-- `content.split('\n')`, accumulator-based. -/
def splitLinesAux : List Char → List Char → List (List Char)
  | acc, [] => [acc.reverse]
  | acc, c :: rest =>
    if c = '\n' then acc.reverse :: splitLinesAux [] rest
    else splitLinesAux (c :: acc) rest

/-- `content.split('\n')`. -/
def splitLines (l : List Char) : List (List Char) :=
  splitLinesAux [] l

/-- JavaScript `Map.get`. -/
def mapGet {α β : Type} [DecidableEq α] (k : α) : List (α × β) → Option β
  | [] => none
  | (k1, v) :: rest => if k1 = k then some v else mapGet k rest

/-- JavaScript `Map.set`: overwrite in place, or append a new entry. -/
def mapSet {α β : Type} [DecidableEq α] (k : α) (v : β) : List (α × β) → List (α × β)
  | [] => [(k, v)]
  | (k1, v1) :: rest =>
    if k1 = k then (k, v) :: rest else (k1, v1) :: mapSet k v rest

/-- Update the value stored under a key (models the source mutating, via
a held reference, the object stored in the map). -/
def mapModify {α β : Type} [DecidableEq α] (k : α) (f : β → β) : List (α × β) → List (α × β)
  | [] => []
  | (k1, v1) :: rest =>
    if k1 = k then (k1, f v1) :: rest else (k1, v1) :: mapModify k f rest

/-- `interface BibleVerse` (parser.ts): `line` is the 0-indexed line
number in the source file. -/
structure BibleVerse where
  verse : Nat
  text : String
  line : Nat
deriving DecidableEq

/-- `interface BibleChapter`. -/
structure BibleChapter where
  number : Nat
  verses : List (Nat × BibleVerse)
deriving DecidableEq

/-- `interface BibleBook`. -/
structure BibleBook where
  name : String
  chapters : List (Nat × BibleChapter)
deriving DecidableEq

/-- `BibleParser.books`. -/
def Index : Type := List (String × BibleBook)

/-- The cursors of `BibleParser.parse`'s loop.  In the source,
`currentBook`/`currentChapter` are object references; since every
`currentBook` (resp. `currentChapter`) is also the object most recently
stored in the owning map under its key, the cursors are modelled by the
keys.  `curChap = some _` implies `curBook = some _` in every reachable
state (a book heading resets `currentChapter` to null). -/
structure ParseState where
  books : List (String × BibleBook)
  curBook : Option String
  curChap : Option Nat

/-- One iteration of the loop body of `BibleParser.parse`
(parser.ts lines 425-457): empty-line skip, then the book / chapter /
verse patterns in order, with the source's fall-through (a chapter
heading with no current book falls through to the verse test, which
cannot fire on it). -/
def parseStep (l : List Char) (i : Nat) (st : ParseState) : ParseState :=
  if l = [] then st
  else
    match bookMatchL l with
    | some g =>
      let bookName := String.mk (trimJS g)
      let key := lowerStr bookName
      { books := mapSet key { name := bookName, chapters := [] } st.books,
        curBook := some key, curChap := none }
    | none =>
      match chapterMatchL l, st.curBook with
      | some d, some bk =>
        let chapterNum := natOfDigits d
        let newChapter : BibleChapter := { number := chapterNum, verses := [] }
        let addChapter : BibleBook → BibleBook :=
          fun b => { b with chapters := mapSet chapterNum newChapter b.chapters }
        { books := mapModify bk addChapter st.books,
          curBook := some bk, curChap := some chapterNum }
      | _, _ =>
        match verseMatchL l, st.curBook, st.curChap with
        | some (d, g), some bk, some cn =>
          let verseNum := natOfDigits d
          let verseText := String.mk (trimJS g)
          let newVerse : BibleVerse := { verse := verseNum, text := verseText, line := i }
          let addVerse : BibleChapter → BibleChapter :=
            fun c => { c with verses := mapSet verseNum newVerse c.verses }
          let addToBook : BibleBook → BibleBook :=
            fun b => { b with chapters := mapModify cn addVerse b.chapters }
          { st with books := mapModify bk addToBook st.books }
        | _, _, _ => st

/-- The `for (let i = 0; i < lines.length; i++)` loop of `parse`. -/
def parseLinesAux : List (List Char) → Nat → ParseState → ParseState
  | [], _, st => st
  | l :: rest, i, st => parseLinesAux rest (i + 1) (parseStep l i st)

/-- The parse state before the loop. -/
def initState : ParseState :=
  { books := [], curBook := none, curChap := none }

/-- `BibleParser.parse` (invoked by the constructor): build the index
from a whole document. -/
def parse (content : String) : List (String × BibleBook) :=
  (parseLinesAux (splitLines content.data) 0 initState).books

/-- `BibleParser.aliases` (parser.ts lines 344-414). -/
def aliasPairs : List (String × String) :=
  [("gen", "Genesis"), ("exo", "Exodus"), ("ex", "Exodus"),
   ("lev", "Leviticus"), ("num", "Numbers"), ("deu", "Deuteronomy"),
   ("josh", "Joshua"), ("judg", "Judges"), ("ruth", "Ruth"),
   ("1 sam", "1 Samuel"), ("2 sam", "2 Samuel"),
   ("1 ki", "1 Kings"), ("2 ki", "2 Kings"),
   ("1 chron", "1 Chronicles"), ("2 chron", "2 Chronicles"),
   ("ezra", "Ezra"), ("neh", "Nehemiah"), ("est", "Esther"),
   ("job", "Job"), ("psa", "Psalms"), ("pro", "Proverbs"),
   ("prov", "Proverbs"), ("ecc", "Ecclesiastes"),
   ("song", "Song of Solomon"), ("isa", "Isaiah"), ("jer", "Jeremiah"),
   ("lam", "Lamentations"), ("eze", "Ezekiel"), ("dan", "Daniel"),
   ("hos", "Hosea"), ("joel", "Joel"), ("amos", "Amos"),
   ("obad", "Obadiah"), ("jon", "Jonah"), ("mic", "Micah"),
   ("nah", "Nahum"), ("hab", "Habakkuk"), ("zeph", "Zephaniah"),
   ("hag", "Haggai"), ("zec", "Zechariah"), ("zech", "Zechariah"),
   ("mal", "Malachi"), ("matt", "Matthew"), ("mark", "Mark"),
   ("luke", "Luke"), ("john", "John"), ("acts", "Acts"),
   ("rom", "Romans"), ("1 cor", "1 Corinthians"), ("2 cor", "2 Corinthians"),
   ("gal", "Galatians"), ("eph", "Ephesians"), ("phil", "Philippians"),
   ("col", "Colossians"), ("1 thess", "1 Thessalonians"),
   ("2 thess", "2 Thessalonians"), ("1 tim", "1 Timothy"),
   ("2 tim", "2 Timothy"), ("titus", "Titus"), ("philem", "Philemon"),
   ("heb", "Hebrews"), ("james", "James"), ("1 pet", "1 Peter"),
   ("2 pet", "2 Peter"), ("1 john", "1 John"), ("2 john", "2 John"),
   ("3 john", "3 John"), ("jude", "Jude"), ("rev", "Revelation")]

/-- The result record of `BibleParser.parseRef`. -/
structure RefParts where
  bookName : String
  chapterNum : Nat
  startVerse : Nat
  endVerse : Nat
deriving DecidableEq

/-- The tail `\s(\d+):(\d+)(?:-(\d+))?` of the reference regex, matched
at the current position.  The greedy `\d+` groups cannot usefully
backtrack (a shorter run is followed by a digit), and the greedy
optional group matches `-(\d+)` if it can and the empty string
otherwise, so the match is deterministic. -/
def matchTail (l : List Char) : Option (List Char × List Char × Option (List Char)) :=
  match l with
  | [] => none
  | c :: rest =>
    if isSpaceJS c then
      let d1 := rest.takeWhile Char.isDigit
      let r1 := rest.dropWhile Char.isDigit
      if d1 = [] then none
      else
        match r1 with
        | ':' :: r2 =>
          let d2 := r2.takeWhile Char.isDigit
          let r3 := r2.dropWhile Char.isDigit
          if d2 = [] then none
          else
            match r3 with
            | '-' :: r4 =>
              let d3 := r4.takeWhile Char.isDigit
              if d3 = [] then some (d1, d2, none) else some (d1, d2, some d3)
            | _ => some (d1, d2, none)
        | _ => none
    else none

/-- The lazy `(.+?)` of the reference regex: with `acc` the (reversed)
group so far, first try the tail at the current position, then extend
the group by one non-line-terminator character and retry. -/
def tryLazy : List Char → List Char → Option (List Char × List Char × List Char × Option (List Char))
  | _, [] => none
  | acc, c :: rest =>
    match matchTail (c :: rest) with
    | some (d1, d2, od3) => some (acc.reverse, d1, d2, od3)
    | none => if isLineTerm c then none else tryLazy (c :: acc) rest

/-- Leftmost match of `/(.+?)\s(\d+):(\d+)(?:-(\d+))?/` (the regex is
unanchored): try each start position from the left; at a viable start
the first character is consumed into the lazy group. -/
def refSearch : List Char → Option (List Char × List Char × List Char × Option (List Char))
  | [] => none
  | c :: rest =>
    if isLineTerm c then refSearch rest
    else
      match tryLazy [c] rest with
      | some g => some g
      | none => refSearch rest

/-- `refString.replace(/\[\[|\]\]/g, '')`: the global replace scans left
to right, removing non-overlapping `[[` / `]]` pairs. -/
def stripBrackets : List Char → List Char
  | [] => []
  | [c] => [c]
  | c1 :: c2 :: rest =>
    if (c1 = '[' ∧ c2 = '[') ∨ (c1 = ']' ∧ c2 = ']') then stripBrackets rest
    else c1 :: stripBrackets (c2 :: rest)

/-- `BibleParser.parseRef` (parser.ts lines 519-535). -/
def parseRef (refString : String) : Option RefParts :=
  let cleanRef := stripBrackets refString.data
  match refSearch cleanRef with
  | none => none
  | some (g1, d1, d2, od3) =>
    some { bookName := String.mk (trimJS g1),
           chapterNum := natOfDigits d1,
           startVerse := natOfDigits d2,
           endVerse :=
             match od3 with
             | some d3 => natOfDigits d3
             | none => natOfDigits d2 }

/-- Book-name normalisation shared by `getVerses` and `getVerseLine`
(the source repeats these lines in both methods): lowercase the
extracted name, then if it is an alias key replace it by the canonical
name lowercased. -/
def resolveKey (bookName : String) : String :=
  let searchKey := lowerStr bookName
  match mapGet searchKey aliasPairs with
  | some properName => lowerStr properName
  | none => searchKey

/-- The verse-accumulation loop
`for (let i = startVerse; i <= endVerse; i++)` of `getVerses`, with the
iteration count as structural fuel. -/
def buildVersesAux (verses : List (Nat × BibleVerse)) : Nat → Nat → String
  | _, 0 => ""
  | s, n + 1 =>
    (match mapGet s verses with
     | some verseData => "<sup>" ++ toString s ++ "</sup> " ++ verseData.text ++ " "
     | none => "") ++ buildVersesAux verses (s + 1) n

/-- `getVerses` after a successful `parseRef` (parser.ts lines 465-492). -/
def getVersesParts (books : List (String × BibleBook)) (parts : RefParts) : Option String :=
  match mapGet (resolveKey parts.bookName) books with
  | none => none
  | some book =>
    match mapGet parts.chapterNum book.chapters with
    | none => none
    | some chapter =>
      let header := "**" ++ book.name ++ " " ++ toString parts.chapterNum ++ ":" ++
        toString parts.startVerse ++
        (if parts.startVerse ≠ parts.endVerse then "-" ++ toString parts.endVerse else "") ++
        "**\n\n"
      some (trimStr (header ++
        buildVersesAux chapter.verses parts.startVerse (parts.endVerse + 1 - parts.startVerse)))

/-- `BibleParser.getVerses` (parser.ts lines 461-493). -/
def getVerses (books : List (String × BibleBook)) (refString : String) : Option String :=
  match parseRef refString with
  | none => none
  | some parts => getVersesParts books parts

/-- `getVerseLine` after a successful `parseRef` (parser.ts lines 499-516). -/
def getVerseLineParts (books : List (String × BibleBook)) (parts : RefParts) : Option Nat :=
  match mapGet (resolveKey parts.bookName) books with
  | none => none
  | some book =>
    match mapGet parts.chapterNum book.chapters with
    | none => none
    | some chapter =>
      match mapGet parts.startVerse chapter.verses with
      | none => none
      | some verseData => some verseData.line

/-- `BibleParser.getVerseLine` (parser.ts lines 495-517). -/
def getVerseLine (books : List (String × BibleBook)) (refString : String) : Option Nat :=
  match parseRef refString with
  | none => none
  | some parts => getVerseLineParts books parts

/-- The four-line example document of the specification. -/
def exampleDoc : String :=
  "# Genesis\n## Chapter 1\n1. In the beginning God created the heavens and the earth.\n2. Now the earth was formless and empty."

/-- C1: end-to-end example.  Parsing the four-line Genesis document and
resolving `"Gen 1:1-2"` yields exactly the header `**Genesis 1:1-2**`,
a blank line, and the two superscript-prefixed verse texts; resolving
`"Gen 1:1"` through `getVerseLine` yields line index 2. -/
theorem example_end_to_end :
    getVerses (parse exampleDoc) "Gen 1:1-2" =
      some "**Genesis 1:1-2**\n\n<sup>1</sup> In the beginning God created the heavens and the earth. <sup>2</sup> Now the earth was formless and empty." ∧
    getVerseLine (parse exampleDoc) "Gen 1:1" = some 2 := by
  constructor
  · decide
  · decide

/-! ### Generic list and character lemmas -/

theorem takeWhile_all {p : Char → Bool} : ∀ (l : List Char), (∀ x ∈ l, p x = true) →
    l.takeWhile p = l ∧ l.dropWhile p = []
  | [], _ => ⟨rfl, rfl⟩
  | c :: t, h => by
    have hc : p c = true := h c (List.mem_cons_self c t)
    have ht := takeWhile_all t (fun x hx => h x (List.mem_cons_of_mem c hx))
    simp [List.takeWhile, List.dropWhile, hc, ht.1, ht.2]

theorem takeWhile_append_stop {p : Char → Bool} : ∀ (d : List Char),
    (∀ x ∈ d, p x = true) → ∀ (c0 : Char), p c0 = false → ∀ (r : List Char),
    (d ++ c0 :: r).takeWhile p = d ∧ (d ++ c0 :: r).dropWhile p = c0 :: r
  | [], _, c0, hc0, r => by simp [List.takeWhile, List.dropWhile, hc0]
  | c :: t, h, c0, hc0, r => by
    have hc : p c = true := h c (List.mem_cons_self c t)
    have ht := takeWhile_append_stop t (fun x hx => h x (List.mem_cons_of_mem c hx)) c0 hc0 r
    simp [List.takeWhile, List.dropWhile, hc, ht.1, ht.2]

theorem dropWhile_eq_self_of_head {p : Char → Bool} (l : List Char)
    (h : ∀ x, l.head? = some x → p x = false) : l.dropWhile p = l := by
  cases l with
  | nil => rfl
  | cons c t => simp [List.dropWhile, h c rfl]

theorem trimJS_eq_self (l : List Char)
    (h1 : ∀ x, l.head? = some x → isSpaceJS x = false)
    (h2 : ∀ x, l.getLast? = some x → isSpaceJS x = false) : trimJS l = l := by
  unfold trimJS
  rw [dropWhile_eq_self_of_head l h1]
  rw [dropWhile_eq_self_of_head l.reverse (by simpa using h2)]
  exact l.reverse_reverse

/-- Recursion principle matching the two-characters-at-a-time scan of
`stripBrackets`. -/
theorem twoStepInduction {motive : List Char → Prop} (h0 : motive ([] : List Char))
    (h1 : ∀ c, motive [c])
    (h2 : ∀ c1 c2 rest, motive rest → motive (c2 :: rest) → motive (c1 :: c2 :: rest)) :
    ∀ l, motive l
  | [] => h0
  | [c] => h1 c
  | c1 :: c2 :: rest =>
    h2 c1 c2 rest (twoStepInduction h0 h1 h2 rest) (twoStepInduction h0 h1 h2 (c2 :: rest))

theorem stripBrackets_eq_self (l : List Char) (h : ∀ x ∈ l, x ≠ '[' ∧ x ≠ ']') :
    stripBrackets l = l := by
  induction l using twoStepInduction with
  | h0 => rfl
  | h1 c => rfl
  | h2 c1 c2 rest ih1 ih2 =>
    have hc1 := h c1 (by simp)
    rw [stripBrackets]
    rw [if_neg (by rintro (⟨ha, _⟩ | ⟨ha, _⟩) <;> exact absurd ha (by tauto))]
    rw [ih2 (fun x hx => h x (List.mem_cons_of_mem c1 hx))]

theorem digit_facts (c : Char) (h : c.isDigit = true) : c ≠ '[' ∧ c ≠ ']' := by
  constructor
  · rintro rfl; exact absurd h (by decide)
  · rintro rfl; exact absurd h (by decide)

/-! ### Behaviour of the reference regex on well-formed references -/

theorem matchTail_suffix (chD vD : List Char) (hc : chD ≠ [])
    (hca : ∀ x ∈ chD, x.isDigit = true) (hv : vD ≠ [])
    (hva : ∀ x ∈ vD, x.isDigit = true) :
    matchTail (' ' :: (chD ++ ':' :: vD)) = some (chD, vD, none) := by
  have hsp : isSpaceJS ' ' = true := by decide
  have h1 := takeWhile_append_stop chD hca ':' (by decide) vD
  have h2 := takeWhile_all vD hva
  simp only [matchTail, hsp, if_true, h1.1, h1.2, h2.1, h2.2, if_neg hc, if_neg hv]

theorem dropWhile_digits_head (rest : List Char) (hrest : ∀ x ∈ rest, x ≠ ':')
    (tl : List Char)
    (htl : ∀ x, tl.head? = some x → (x.isDigit = false ∧ x ≠ ':')) :
    ∀ x, ((rest ++ tl).dropWhile Char.isDigit).head? = some x → x ≠ ':' := by
  induction rest with
  | nil =>
    intro x hx
    cases tl with
    | nil => simp at hx
    | cons c t =>
      have hc := htl c rfl
      simp only [List.nil_append, List.dropWhile, hc.1] at hx
      simp only [List.head?] at hx
      exact (Option.some.injEq _ _ ▸ hx : c = x) ▸ hc.2
  | cons c rest' ih =>
    intro x hx
    by_cases hd : c.isDigit = true
    · refine ih (fun y hy => hrest y (List.mem_cons_of_mem c hy)) x ?_
      simpa [List.dropWhile, hd] using hx
    · simp only [List.cons_append, List.dropWhile, Bool.not_eq_true] at hx
      rw [Bool.not_eq_true] at hd
      simp only [hd, List.head?] at hx
      exact (Option.some.injEq _ _ ▸ hx : c = x) ▸ hrest c (List.mem_cons_self c rest')

theorem matchTail_inner_none (c : Char) (rest : List Char)
    (hnc : ∀ x ∈ c :: rest, x ≠ ':') (tl : List Char)
    (htl : ∀ x, tl.head? = some x → (x.isDigit = false ∧ x ≠ ':')) :
    matchTail (c :: (rest ++ tl)) = none := by
  by_cases hws : isSpaceJS c = true
  · simp only [matchTail, hws, if_true]
    by_cases hd : (rest ++ tl).takeWhile Char.isDigit = []
    · simp [hd]
    · rw [if_neg hd]
      have hh := dropWhile_digits_head rest (fun y hy => hnc y (List.mem_cons_of_mem c hy)) tl htl
      cases hdrop : (rest ++ tl).dropWhile Char.isDigit with
      | nil => rfl
      | cons c1 t1 =>
        have hc1 : c1 ≠ ':' := hh c1 (by rw [hdrop]; rfl)
        split
        · rename_i heq
          exact absurd (List.cons.injEq _ _ _ _ ▸ heq).1 hc1
        · rfl
  · simp [matchTail, hws]

theorem suffix_head_facts (chD vD : List Char) :
    ∀ x, (' ' :: (chD ++ ':' :: vD)).head? = some x → (x.isDigit = false ∧ x ≠ ':') := by
  intro x hx
  have : (' ' : Char) = x := Option.some.injEq _ _ ▸ hx
  subst this
  exact ⟨by decide, by decide⟩

theorem tryLazy_cons (acc : List Char) (c : Char) (rest : List Char) :
    tryLazy acc (c :: rest) =
      match matchTail (c :: rest) with
      | some (d1, d2, od3) => some (acc.reverse, d1, d2, od3)
      | none => if isLineTerm c then none else tryLazy (c :: acc) rest := rfl

theorem refSearch_cons (c : Char) (rest : List Char) :
    refSearch (c :: rest) =
      (if isLineTerm c then refSearch rest
       else
        match tryLazy [c] rest with
        | some g => some g
        | none => refSearch rest) := rfl

theorem tryLazy_complete (chD vD : List Char) (hc : chD ≠ [])
    (hca : ∀ x ∈ chD, x.isDigit = true) (hv : vD ≠ [])
    (hva : ∀ x ∈ vD, x.isDigit = true) :
    ∀ (rem acc : List Char), (∀ x ∈ rem, isLineTerm x = false ∧ x ≠ ':') →
    tryLazy acc (rem ++ ' ' :: (chD ++ ':' :: vD)) =
      some (acc.reverse ++ rem, chD, vD, none) := by
  intro rem
  induction rem with
  | nil =>
    intro acc _
    rw [List.nil_append, tryLazy_cons, matchTail_suffix chD vD hc hca hv hva]
    simp
  | cons x rem' ih =>
    intro acc hrem
    have hx := hrem x (List.mem_cons_self x rem')
    have hmt : matchTail (x :: (rem' ++ ' ' :: (chD ++ ':' :: vD))) = none := by
      refine matchTail_inner_none x rem' ?_ _ (suffix_head_facts chD vD)
      intro y hy
      exact (hrem y hy).2
    rw [List.cons_append, tryLazy_cons, hmt]
    simp only []
    rw [if_neg (by rw [hx.1]; exact Bool.false_ne_true)]
    rw [ih (x :: acc) (fun y hy => hrem y (List.mem_cons_of_mem x hy))]
    simp

theorem refSearch_complete (name chD vD : List Char) (hname : name ≠ [])
    (hnm : ∀ x ∈ name, isLineTerm x = false ∧ x ≠ ':') (hc : chD ≠ [])
    (hca : ∀ x ∈ chD, x.isDigit = true) (hv : vD ≠ [])
    (hva : ∀ x ∈ vD, x.isDigit = true) :
    refSearch (name ++ ' ' :: (chD ++ ':' :: vD)) = some (name, chD, vD, none) := by
  cases name with
  | nil => exact absurd rfl hname
  | cons n0 nrest =>
    have h0 := hnm n0 (List.mem_cons_self n0 nrest)
    rw [List.cons_append, refSearch_cons]
    rw [if_neg (by rw [h0.1]; exact Bool.false_ne_true)]
    rw [tryLazy_complete chD vD hc hca hv hva nrest [n0]
      (fun y hy => hnm y (List.mem_cons_of_mem n0 hy))]
    simp

/-- A head-position whitespace test used by `goodRefName`. -/
def headOkJS (l : List Char) : Bool :=
  match l.head? with
  | some x => !(isSpaceJS x)
  | none => true

/-- A last-position whitespace test used by `goodRefName`. -/
def lastOkJS (l : List Char) : Bool :=
  match l.getLast? with
  | some x => !(isSpaceJS x)
  | none => true

/-- A book name is "good" when the reference regex extracts it whole
from `<name> <ch>:<v>`: non-empty, no line terminators, colons or
square brackets, and no whitespace at either end. -/
def goodRefName (name : List Char) : Bool :=
  decide (name ≠ []) &&
  name.all (fun x =>
    !(isLineTerm x) && decide (x ≠ ':') && decide (x ≠ '[') && decide (x ≠ ']')) &&
  headOkJS name && lastOkJS name

theorem goodRefName_spec (name : List Char) (h : goodRefName name = true) :
    name ≠ [] ∧ (∀ x ∈ name, isLineTerm x = false ∧ x ≠ ':' ∧ x ≠ '[' ∧ x ≠ ']') ∧
    (∀ x, name.head? = some x → isSpaceJS x = false) ∧
    (∀ x, name.getLast? = some x → isSpaceJS x = false) := by
  simp only [goodRefName, Bool.and_eq_true, List.all_eq_true, decide_eq_true_eq,
    Bool.not_eq_true'] at h
  obtain ⟨⟨⟨hne, hall⟩, hhead⟩, hlast⟩ := h
  refine ⟨hne, fun x hx => ?_, fun x hx => ?_, fun x hx => ?_⟩
  · have := hall x hx
    exact ⟨this.1.1.1, this.1.1.2, this.1.2, this.2⟩
  · unfold headOkJS at hhead
    rw [hx] at hhead
    simpa using hhead
  · unfold lastOkJS at hlast
    rw [hx] at hlast
    simpa using hlast

/-- The well-formed reference string `<name> <chD>:<vD>`. -/
def refOfL (name chD vD : List Char) : String :=
  String.mk (name ++ ' ' :: (chD ++ ':' :: vD))

theorem parseRef_refOfL (name chD vD : List Char) (hn : goodRefName name = true)
    (hc : chD ≠ []) (hca : chD.all Char.isDigit = true)
    (hv : vD ≠ []) (hva : vD.all Char.isDigit = true) :
    parseRef (refOfL name chD vD) =
      some { bookName := String.mk name, chapterNum := natOfDigits chD,
             startVerse := natOfDigits vD, endVerse := natOfDigits vD } := by
  obtain ⟨hne, hall, hhead, hlast⟩ := goodRefName_spec name hn
  rw [List.all_eq_true] at hca hva
  have hstrip : stripBrackets (name ++ ' ' :: (chD ++ ':' :: vD)) =
      name ++ ' ' :: (chD ++ ':' :: vD) := by
    refine stripBrackets_eq_self _ ?_
    intro x hx
    rcases List.mem_append.1 hx with hx | hx
    · exact ⟨(hall x hx).2.2.1, (hall x hx).2.2.2⟩
    · rcases List.mem_cons.1 hx with rfl | hx
      · exact ⟨by decide, by decide⟩
      rcases List.mem_append.1 hx with hx | hx
      · exact digit_facts x (hca x hx)
      rcases List.mem_cons.1 hx with rfl | hx
      · exact ⟨by decide, by decide⟩
      · exact digit_facts x (hva x hx)
  have hsearch := refSearch_complete name chD vD hne
    (fun x hx => ⟨(hall x hx).1, (hall x hx).2.1⟩) hc hca hv hva
  have htrim : trimJS name = name := trimJS_eq_self name hhead hlast
  simp only [parseRef, refOfL, hstrip, hsearch, htrim]

/-- C6: the reference grammar
`<BookName><space><chapter>:<startVerse>[-<endVerse>]`.  The book name
is everything up to the last space before the chapter number
(multi-word `"Song of Solomon"` and numeric-prefixed `"1 Corinthians"`
are extracted in full), and when the `-<endVerse>` suffix is absent the
end verse equals the start verse — stated both on the two concrete
examples and for every well-formed `<name> <ch>:<v>` reference. -/
theorem parseRef_grammar :
    parseRef "Song of Solomon 2:1" =
      some { bookName := "Song of Solomon", chapterNum := 2, startVerse := 1, endVerse := 1 } ∧
    parseRef "1 Corinthians 3:4-6" =
      some { bookName := "1 Corinthians", chapterNum := 3, startVerse := 4, endVerse := 6 } ∧
    ∀ name chD vD : List Char, goodRefName name = true →
      chD ≠ [] → chD.all Char.isDigit = true → vD ≠ [] → vD.all Char.isDigit = true →
      parseRef (refOfL name chD vD) =
        some { bookName := String.mk name, chapterNum := natOfDigits chD,
               startVerse := natOfDigits vD, endVerse := natOfDigits vD } := by
  refine ⟨by decide, by decide, ?_⟩
  intro name chD vD hn hc hca hv hva
  exact parseRef_refOfL name chD vD hn hc hca hv hva

/-- Witness for `parseRef_grammar`: the general clause applied to the
reference `"2 Kings 10:3"`. -/
theorem parseRef_grammar_witness :
    goodRefName "2 Kings".data = true ∧
    parseRef (refOfL "2 Kings".data "10".data "3".data) =
      some { bookName := "2 Kings", chapterNum := 10, startVerse := 3, endVerse := 3 } :=
  ⟨by decide, parseRef_grammar.2.2 "2 Kings".data "10".data "3".data
    (by decide) (by decide) (by decide) (by decide) (by decide)⟩

/-! ### The alias table -/

theorem aliasKeysLower :
    aliasPairs.all (fun p => lowerStr p.1 == p.1) = true := by decide

theorem aliasNamesGood :
    aliasPairs.all (fun p => goodRefName p.1.data && goodRefName p.2.data) = true := by
  decide

theorem aliasKeysNodup : (aliasPairs.map Prod.fst).Nodup := by decide

theorem aliasStable :
    aliasPairs.all (fun p =>
      match mapGet (lowerStr p.2) aliasPairs with
      | some q => lowerStr q == lowerStr p.2
      | none => true) = true := by decide

theorem mapGet_of_mem_nodup {α β : Type} [DecidableEq α] (k : α) (v : β) :
    ∀ (m : List (α × β)), (k, v) ∈ m → (m.map Prod.fst).Nodup → mapGet k m = some v
  | [], hmem, _ => absurd hmem (List.not_mem_nil (k, v))
  | (k1, v1) :: rest, hmem, hnd => by
    rcases List.mem_cons.1 hmem with heq | hmem2
    · obtain ⟨rfl, rfl⟩ := Prod.mk.injEq _ _ _ _ ▸ heq
      simp [mapGet]
    · have hk : k1 ≠ k := by
        intro hkk
        subst hkk
        have : k1 ∈ rest.map Prod.fst := List.mem_map.2 ⟨(k1, v), hmem2, rfl⟩
        exact (List.nodup_cons.1 (by simpa using hnd)).1 this
      rw [mapGet, if_neg hk]
      exact mapGet_of_mem_nodup k v rest hmem2 (List.nodup_cons.1 (by simpa using hnd)).2

theorem resolveKey_of_alias (a c : String) (hmem : (a, c) ∈ aliasPairs) :
    resolveKey a = lowerStr c := by
  have hl : lowerStr a = a := by
    have := (List.all_eq_true.1 aliasKeysLower) (a, c) hmem
    simpa using this
  simp only [resolveKey]
  rw [hl, mapGet_of_mem_nodup a c aliasPairs hmem aliasKeysNodup]

theorem resolveKey_of_canonical (a c : String) (hmem : (a, c) ∈ aliasPairs) :
    resolveKey c = lowerStr c := by
  have hstable := (List.all_eq_true.1 aliasStable) (a, c) hmem
  have hstable2 : (match mapGet (lowerStr c) aliasPairs with
      | some q => lowerStr q == lowerStr c
      | none => true) = true := hstable
  simp only [resolveKey]
  cases hq : mapGet (lowerStr c) aliasPairs with
  | none => rfl
  | some q =>
    rw [hq] at hstable2
    simpa using hstable2

theorem goodRefName_of_alias (a c : String) (hmem : (a, c) ∈ aliasPairs) :
    goodRefName a.data = true ∧ goodRefName c.data = true := by
  have := (List.all_eq_true.1 aliasNamesGood) (a, c) hmem
  simpa [Bool.and_eq_true] using this

theorem getVersesParts_key_congr (books : List (String × BibleBook))
    (n1 n2 : String) (ch s e : Nat) (h : resolveKey n1 = resolveKey n2) :
    getVersesParts books { bookName := n1, chapterNum := ch, startVerse := s, endVerse := e } =
      getVersesParts books { bookName := n2, chapterNum := ch, startVerse := s, endVerse := e } ∧
    getVerseLineParts books { bookName := n1, chapterNum := ch, startVerse := s, endVerse := e } =
      getVerseLineParts books { bookName := n2, chapterNum := ch, startVerse := s, endVerse := e } := by
  refine ⟨?_, ?_⟩
  · unfold getVersesParts
    simp only [h]
  · unfold getVerseLineParts
    simp only [h]

/-- C4: for every entry (abbreviation, canonical name) of the static
alias table, and every index with the addressed chapter and verse
present under the canonical book, resolving `<alias> <ch>:<v>` gives a
result identical to resolving `<canonical-name> <ch>:<v>`, through both
`getVerses` and `getVerseLine`. -/
theorem alias_canonical_equiv :
    ∀ a c : String, (a, c) ∈ aliasPairs →
    ∀ (books : List (String × BibleBook)) (chD vD : List Char),
      chD ≠ [] → chD.all Char.isDigit = true → vD ≠ [] → vD.all Char.isDigit = true →
    ∀ (book : BibleBook) (chapter : BibleChapter) (v : BibleVerse),
      mapGet (lowerStr c) books = some book →
      mapGet (natOfDigits chD) book.chapters = some chapter →
      mapGet (natOfDigits vD) chapter.verses = some v →
      getVerses books (refOfL a.data chD vD) = getVerses books (refOfL c.data chD vD) ∧
      getVerseLine books (refOfL a.data chD vD) = getVerseLine books (refOfL c.data chD vD) := by
  intro a c hmem books chD vD hc hca hv hva book chapter v hbook hchap hverse
  obtain ⟨hga, hgc⟩ := goodRefName_of_alias a c hmem
  have hpa := parseRef_refOfL a.data chD vD hga hc hca hv hva
  have hpc := parseRef_refOfL c.data chD vD hgc hc hca hv hva
  have hmka : String.mk a.data = a := rfl
  have hmkc : String.mk c.data = c := rfl
  rw [hmka] at hpa
  rw [hmkc] at hpc
  have hkey : resolveKey a = resolveKey c := by
    rw [resolveKey_of_alias a c hmem, resolveKey_of_canonical a c hmem]
  constructor
  · simp only [getVerses, hpa, hpc]
    exact (getVersesParts_key_congr books a c _ _ _ hkey).1
  · simp only [getVerseLine, hpa, hpc]
    exact (getVersesParts_key_congr books a c _ _ _ hkey).2

/-- Witness for `alias_canonical_equiv`: the alias `"gen"` against the
canonical `"Genesis"` on the example index, for chapter 1 verse 1. -/
theorem alias_canonical_equiv_witness :
    getVerses (parse exampleDoc) (refOfL "gen".data "1".data "1".data) =
      getVerses (parse exampleDoc) (refOfL "Genesis".data "1".data "1".data) ∧
    getVerseLine (parse exampleDoc) (refOfL "gen".data "1".data "1".data) =
      getVerseLine (parse exampleDoc) (refOfL "Genesis".data "1".data "1".data) :=
  alias_canonical_equiv "gen" "Genesis" (by decide) (parse exampleDoc) "1".data "1".data
    (by decide) (by decide) (by decide) (by decide)
    ⟨"Genesis", [(1, ⟨1,
      [(1, ⟨1, "In the beginning God created the heavens and the earth.", 2⟩),
       (2, ⟨2, "Now the earth was formless and empty.", 3⟩)]⟩)]⟩
    ⟨1, [(1, ⟨1, "In the beginning God created the heavens and the earth.", 2⟩),
         (2, ⟨2, "Now the earth was formless and empty.", 3⟩)]⟩
    ⟨1, "In the beginning God created the heavens and the earth.", 2⟩
    (by decide) (by decide) (by decide)

/-! ### Bracket decoration and book-name case -/

theorem stripBrackets_cons2 (c1 c2 : Char) (rest : List Char) :
    stripBrackets (c1 :: c2 :: rest) =
      if (c1 = '[' ∧ c2 = '[') ∨ (c1 = ']' ∧ c2 = ']') then stripBrackets rest
      else c1 :: stripBrackets (c2 :: rest) := rfl

theorem stripBrackets_append_close :
    ∀ l : List Char, stripBrackets (l ++ [']', ']']) = stripBrackets l := by
  intro l
  induction l using twoStepInduction with
  | h0 => rfl
  | h1 c =>
    by_cases hc : c = ']'
    · subst hc; rfl
    · rw [List.cons_append, List.nil_append, stripBrackets_cons2]
      rw [if_neg ?hcond]
      case hcond =>
        rintro (⟨_, h⟩ | ⟨h, _⟩)
        · exact absurd h (by decide)
        · exact hc h
      rfl
  | h2 c1 c2 rest ih1 ih2 =>
    rw [List.cons_append, List.cons_append]
    by_cases hpair : (c1 = '[' ∧ c2 = '[') ∨ (c1 = ']' ∧ c2 = ']')
    · rw [stripBrackets_cons2, if_pos hpair, ih1, stripBrackets_cons2, if_pos hpair]
    · rw [stripBrackets_cons2, if_neg hpair, ← List.cons_append, ih2,
        stripBrackets_cons2, if_neg hpair]

theorem parseRef_brackets (r : String) :
    parseRef ("[[" ++ r ++ "]]") = parseRef r := by
  have hd : ("[[" ++ r ++ "]]").data = '[' :: '[' :: (r.data ++ [']', ']']) := by
    simp [String.data_append]
  unfold parseRef
  rw [hd, stripBrackets_cons2, if_pos (Or.inl ⟨rfl, rfl⟩), stripBrackets_append_close]

/-- C5: resolution is insensitive to book-name letter case and to
double-bracket link decoration: the three concrete spellings of
Genesis 1:1 resolve identically on every index, adding a `[[...]]`
wrapper never changes the result of either resolver, and two successful
reference parses that agree on everything up to book-name case resolve
identically. -/
theorem ref_case_bracket_insensitive :
    ∀ books : List (String × BibleBook),
      (getVerses books "[[GEN 1:1]]" = getVerses books "gen 1:1" ∧
       getVerses books "[[Gen 1:1]]" = getVerses books "gen 1:1" ∧
       getVerseLine books "[[GEN 1:1]]" = getVerseLine books "gen 1:1" ∧
       getVerseLine books "[[Gen 1:1]]" = getVerseLine books "gen 1:1") ∧
      (∀ r : String, getVerses books ("[[" ++ r ++ "]]") = getVerses books r ∧
        getVerseLine books ("[[" ++ r ++ "]]") = getVerseLine books r) ∧
      (∀ (r1 r2 : String) (p1 p2 : RefParts), parseRef r1 = some p1 → parseRef r2 = some p2 →
        lowerStr p1.bookName = lowerStr p2.bookName → p1.chapterNum = p2.chapterNum →
        p1.startVerse = p2.startVerse → p1.endVerse = p2.endVerse →
        getVerses books r1 = getVerses books r2 ∧
        getVerseLine books r1 = getVerseLine books r2) := by
  intro books
  refine ⟨⟨rfl, rfl, rfl, rfl⟩, ?_, ?_⟩
  · intro r
    exact ⟨by simp only [getVerses, parseRef_brackets r],
           by simp only [getVerseLine, parseRef_brackets r]⟩
  · intro r1 r2 p1 p2 h1 h2 hbn hch hs he
    rcases p1 with ⟨n1, ch1, s1, e1⟩
    rcases p2 with ⟨n2, ch2, s2, e2⟩
    simp only at hbn hch hs he
    subst hch hs he
    have hkey : resolveKey n1 = resolveKey n2 := by
      simp only [resolveKey, hbn]
    exact ⟨by simp only [getVerses, h1, h2]
              exact (getVersesParts_key_congr books n1 n2 _ _ _ hkey).1,
           by simp only [getVerseLine, h1, h2]
              exact (getVersesParts_key_congr books n1 n2 _ _ _ hkey).2⟩

/-- Witness for `ref_case_bracket_insensitive`: the case clause applied
to `"GEN 1:1"` versus `"gen 1:1"` on the example index. -/
theorem ref_case_bracket_insensitive_witness :
    parseRef "GEN 1:1" = some { bookName := "GEN", chapterNum := 1, startVerse := 1, endVerse := 1 } ∧
    getVerses (parse exampleDoc) "GEN 1:1" = getVerses (parse exampleDoc) "gen 1:1" :=
  ⟨by decide,
   ((ref_case_bracket_insensitive (parse exampleDoc)).2.2 "GEN 1:1" "gen 1:1"
     { bookName := "GEN", chapterNum := 1, startVerse := 1, endVerse := 1 }
     { bookName := "gen", chapterNum := 1, startVerse := 1, endVerse := 1 }
     (by decide) (by decide) (by decide) rfl rfl rfl).1⟩

/-! ### The verse-range rendering of getVerses -/

/-- Concatenation of a list of fragments (specification-side
vocabulary for the accumulation loop of `getVerses`). -/
def joinStr : List String → String
  | [] => ""
  | s :: rest => s ++ joinStr rest

theorem joinStr_cons (s : String) (l : List String) : joinStr (s :: l) = s ++ joinStr l := rfl

theorem buildVersesAux_succ (verses : List (Nat × BibleVerse)) (s n : Nat) :
    buildVersesAux verses s (n + 1) =
      (match mapGet s verses with
       | some verseData => "<sup>" ++ toString s ++ "</sup> " ++ verseData.text ++ " "
       | none => "") ++ buildVersesAux verses (s + 1) n := rfl

theorem buildVersesAux_join (verses : List (Nat × BibleVerse)) :
    ∀ (n s : Nat), buildVersesAux verses s n =
      joinStr ((List.range' s n).map (fun i =>
        match mapGet i verses with
        | some verseData => "<sup>" ++ toString i ++ "</sup> " ++ verseData.text ++ " "
        | none => ""))
  | 0, s => rfl
  | n + 1, s => by
    rw [buildVersesAux_succ, List.range'_succ, List.map_cons, joinStr_cons,
      buildVersesAux_join verses n (s + 1)]

theorem str_append_empty (s : String) : s ++ "" = s := by
  cases s with
  | mk d => exact congrArg String.mk (List.append_nil d)

theorem buildVersesAux_absent (verses : List (Nat × BibleVerse)) :
    ∀ (n s : Nat), (∀ i, s ≤ i → i < s + n → mapGet i verses = none) →
      buildVersesAux verses s n = ""
  | 0, _, _ => rfl
  | n + 1, s, h => by
    rw [buildVersesAux_succ, h s le_rfl (by omega),
      buildVersesAux_absent verses n (s + 1) (fun i h1 h2 => h i (by omega) (by omega))]
    rfl

/-- C2: whenever the reference parses and the book and chapter resolve,
`getVerses` returns the header (book name, chapter, and the range
rendered `N` when start = end and `N-M` otherwise) followed by the
fragments for exactly the verse numbers from `startVerse` to `endVerse`
inclusive, in ascending order, each present verse prefixed with its
number in superscript and absent verse numbers contributing nothing. -/
theorem getVerses_range_spec (books : List (String × BibleBook)) (r : String) (p : RefParts)
    (book : BibleBook) (chapter : BibleChapter)
    (hp : parseRef r = some p)
    (hb : mapGet (resolveKey p.bookName) books = some book)
    (hc : mapGet p.chapterNum book.chapters = some chapter) :
    getVerses books r = some (trimStr (
      ("**" ++ book.name ++ " " ++ toString p.chapterNum ++ ":" ++ toString p.startVerse ++
        (if p.startVerse = p.endVerse then "" else "-" ++ toString p.endVerse) ++ "**\n\n") ++
      joinStr ((List.range' p.startVerse (p.endVerse + 1 - p.startVerse)).map (fun i =>
        match mapGet i chapter.verses with
        | some verseData => "<sup>" ++ toString i ++ "</sup> " ++ verseData.text ++ " "
        | none => "")))) := by
  simp only [getVerses, hp]
  unfold getVersesParts
  simp only [hb, hc]
  rw [buildVersesAux_join]
  by_cases hse : p.startVerse = p.endVerse
  · simp [hse]
  · simp [hse]

/-- Witness for `getVerses_range_spec`: a chapter holding verses 1 and 3,
queried with the range 1-3. -/
theorem getVerses_range_spec_witness :
    getVerses (parse "# Alpha\n## Chapter 1\n1. first verse\n3. third verse") "Alpha 1:1-3" =
      some (trimStr (
        ("**" ++ "Alpha" ++ " " ++ toString 1 ++ ":" ++ toString 1 ++
          (if 1 = 3 then "" else "-" ++ toString 3) ++ "**\n\n") ++
        joinStr ((List.range' 1 (3 + 1 - 1)).map (fun i =>
          match mapGet i ([(1, ⟨1, "first verse", 2⟩),
              (3, ⟨3, "third verse", 3⟩)] : List (Nat × BibleVerse)) with
          | some verseData => "<sup>" ++ toString i ++ "</sup> " ++ verseData.text ++ " "
          | none => "")))) :=
  getVerses_range_spec (parse "# Alpha\n## Chapter 1\n1. first verse\n3. third verse")
    "Alpha 1:1-3"
    { bookName := "Alpha", chapterNum := 1, startVerse := 1, endVerse := 3 }
    ⟨"Alpha", [(1, ⟨1, [(1, ⟨1, "first verse", 2⟩), (3, ⟨3, "third verse", 3⟩)]⟩)]⟩
    ⟨1, [(1, ⟨1, "first verse", 2⟩), (3, ⟨3, "third verse", 3⟩)]⟩
    (by decide) (by decide) (by decide)

/-- C10: whenever the reference parses and the book and chapter
resolve, `getVerses` returns a non-null string, and when no verse of
the inclusive range is present — in particular when endVerse is less
than startVerse — the result is the trimmed header line alone. -/
theorem getVerses_header_alone (books : List (String × BibleBook)) (r : String) (p : RefParts)
    (book : BibleBook) (chapter : BibleChapter)
    (hp : parseRef r = some p)
    (hb : mapGet (resolveKey p.bookName) books = some book)
    (hc : mapGet p.chapterNum book.chapters = some chapter) :
    (getVerses books r).isSome = true ∧
    ((p.endVerse < p.startVerse ∨
      (∀ i, p.startVerse ≤ i → i ≤ p.endVerse → mapGet i chapter.verses = none)) →
      getVerses books r = some (trimStr
        ("**" ++ book.name ++ " " ++ toString p.chapterNum ++ ":" ++ toString p.startVerse ++
         (if p.startVerse ≠ p.endVerse then "-" ++ toString p.endVerse else "") ++ "**\n\n"))) := by
  simp only [getVerses, hp]
  unfold getVersesParts
  simp only [hb, hc]
  constructor
  · rfl
  · intro hemp
    have hbv : buildVersesAux chapter.verses p.startVerse (p.endVerse + 1 - p.startVerse) = "" := by
      rcases hemp with hlt | hnone
      · have h0 : p.endVerse + 1 - p.startVerse = 0 := by omega
        rw [h0]
        rfl
      · exact buildVersesAux_absent chapter.verses _ _ (fun i h1 h2 => hnone i h1 (by omega))
    rw [hbv, str_append_empty]

/-- Witness for `getVerses_header_alone`: the empty range 3-2 yields the
bare header, not null. -/
theorem getVerses_header_alone_witness :
    getVerses (parse "# Alpha\n## Chapter 1\n1. first verse\n3. third verse") "Alpha 1:3-2" =
      some (trimStr
        ("**" ++ "Alpha" ++ " " ++ toString 1 ++ ":" ++ toString 3 ++
         (if 3 ≠ 2 then "-" ++ toString 2 else "") ++ "**\n\n")) :=
  (getVerses_header_alone (parse "# Alpha\n## Chapter 1\n1. first verse\n3. third verse")
    "Alpha 1:3-2"
    { bookName := "Alpha", chapterNum := 1, startVerse := 3, endVerse := 2 }
    ⟨"Alpha", [(1, ⟨1, [(1, ⟨1, "first verse", 2⟩), (3, ⟨3, "third verse", 3⟩)]⟩)]⟩
    ⟨1, [(1, ⟨1, "first verse", 2⟩), (3, ⟨3, "third verse", 3⟩)]⟩
    (by decide) (by decide) (by decide)).2 (Or.inl (by decide))

/-! ### Null results of the resolver -/

/-- C7: the two resolvers are total and report every failure as null:
an unparsable reference, a book key absent after alias normalisation,
an absent chapter, and (for the line lookup) an absent start verse each
produce `none`. -/
theorem resolver_null_cases :
    ∀ (books : List (String × BibleBook)) (r : String),
      (parseRef r = none → getVerses books r = none ∧ getVerseLine books r = none) ∧
      (∀ p : RefParts, parseRef r = some p →
        (mapGet (resolveKey p.bookName) books = none →
          getVerses books r = none ∧ getVerseLine books r = none) ∧
        (∀ book : BibleBook, mapGet (resolveKey p.bookName) books = some book →
          mapGet p.chapterNum book.chapters = none →
          getVerses books r = none ∧ getVerseLine books r = none) ∧
        (∀ (book : BibleBook) (chapter : BibleChapter),
          mapGet (resolveKey p.bookName) books = some book →
          mapGet p.chapterNum book.chapters = some chapter →
          mapGet p.startVerse chapter.verses = none →
          getVerseLine books r = none)) := by
  intro books r
  constructor
  · intro hp
    exact ⟨by simp only [getVerses, hp], by simp only [getVerseLine, hp]⟩
  · intro p hp
    refine ⟨?_, ?_, ?_⟩
    · intro hb
      constructor
      · simp only [getVerses, hp]
        unfold getVersesParts
        simp only [hb]
      · simp only [getVerseLine, hp]
        unfold getVerseLineParts
        simp only [hb]
    · intro book hb hc
      constructor
      · simp only [getVerses, hp]
        unfold getVersesParts
        simp only [hb, hc]
      · simp only [getVerseLine, hp]
        unfold getVerseLineParts
        simp only [hb, hc]
    · intro book chapter hb hc hv
      simp only [getVerseLine, hp]
      unfold getVerseLineParts
      simp only [hb, hc, hv]

/-- Witness for `resolver_null_cases`: the non-reference `"xyz"` yields
null from both resolvers. -/
theorem resolver_null_cases_witness :
    getVerses (parse exampleDoc) "xyz" = none ∧
    getVerseLine (parse exampleDoc) "xyz" = none :=
  (resolver_null_cases (parse exampleDoc) "xyz").1 (by decide)

/-! ### Leniency of the document parser -/

theorem parseLinesAux_cons (l : List Char) (rest : List (List Char)) (i : Nat)
    (st : ParseState) :
    parseLinesAux (l :: rest) i st = parseLinesAux rest (i + 1) (parseStep l i st) := rfl

theorem dropLit_eq (ps : List Char) :
    ∀ (l r : List Char), dropLit ps l = some r → l = ps ++ r := by
  induction ps with
  | nil =>
    intro l r h
    simp only [dropLit, Option.some.injEq] at h
    rw [h, List.nil_append]
  | cons p ps ih =>
    intro l r h
    cases l with
    | nil => exact absurd h (by simp [dropLit])
    | cons c cs =>
      by_cases hc : c = p
      · subst hc
        rw [dropLit, if_pos rfl] at h
        rw [List.cons_append, ih cs r h]
      · rw [dropLit, if_neg hc] at h
        exact absurd h (by simp)

theorem chapterMatchL_shape (l : List Char) (d : List Char) (h : chapterMatchL l = some d) :
    ∃ rest, l = ['#', '#', ' ', 'C', 'h', 'a', 'p', 't', 'e', 'r', ' '] ++ rest := by
  unfold chapterMatchL at h
  cases hd : dropLit ['#', '#', ' ', 'C', 'h', 'a', 'p', 't', 'e', 'r', ' '] l with
  | none => rw [hd] at h; exact absurd h (by simp)
  | some rest => exact ⟨rest, dropLit_eq _ _ _ hd⟩

theorem bookMatchL_of_chapter (l : List Char) (d : List Char)
    (h : chapterMatchL l = some d) : bookMatchL l = none := by
  obtain ⟨rest, rfl⟩ := chapterMatchL_shape l d h
  rfl

theorem verseMatchL_of_chapter (l : List Char) (d : List Char)
    (h : chapterMatchL l = some d) : verseMatchL l = none := by
  obtain ⟨rest, rfl⟩ := chapterMatchL_shape l d h
  rfl

theorem verseMatchL_head_digit (l : List Char) (d g : List Char)
    (h : verseMatchL l = some (d, g)) : ∃ c cs, l = c :: cs ∧ c.isDigit = true := by
  unfold verseMatchL at h
  cases l with
  | nil => exact absurd h (by simp)
  | cons c cs =>
    by_cases hd : c.isDigit = true
    · exact ⟨c, cs, rfl, hd⟩
    · rw [Bool.not_eq_true] at hd
      simp only [List.takeWhile_cons, hd] at h
      exact absurd h (by simp)

theorem bookMatchL_of_verse (l : List Char) (d g : List Char)
    (h : verseMatchL l = some (d, g)) : bookMatchL l = none := by
  obtain ⟨c, cs, rfl, hdig⟩ := verseMatchL_head_digit l d g h
  have hch : c ≠ '#' := by
    rintro rfl
    exact absurd hdig (by decide)
  simp [bookMatchL, dropLit, hch]

theorem chapterMatchL_of_verse (l : List Char) (d g : List Char)
    (h : verseMatchL l = some (d, g)) : chapterMatchL l = none := by
  obtain ⟨c, cs, rfl, hdig⟩ := verseMatchL_head_digit l d g h
  have hch : c ≠ '#' := by
    rintro rfl
    exact absurd hdig (by decide)
  simp [chapterMatchL, dropLit, hch]

/-- C8: the parser is lenient at every line: a chapter heading met
while no book is open changes nothing, a verse line met while no
chapter is open changes nothing, a line matching none of the three
patterns changes nothing — and in all three cases the remaining lines
are still parsed (the loop simply moves to the next line with the same
state). -/
theorem parse_lenient :
    ∀ (l : List Char) (i : Nat) (st : ParseState) (rest : List (List Char)),
      ((∃ d, chapterMatchL l = some d) → st.curBook = none →
        parseLinesAux (l :: rest) i st = parseLinesAux rest (i + 1) st) ∧
      ((∃ d g, verseMatchL l = some (d, g)) → st.curChap = none →
        parseLinesAux (l :: rest) i st = parseLinesAux rest (i + 1) st) ∧
      (bookMatchL l = none → chapterMatchL l = none → verseMatchL l = none →
        parseLinesAux (l :: rest) i st = parseLinesAux rest (i + 1) st) := by
  intro l i st rest
  obtain ⟨bks, cb, cc⟩ := st
  have hstep : parseStep l i ⟨bks, cb, cc⟩ = ⟨bks, cb, cc⟩ →
      parseLinesAux (l :: rest) i ⟨bks, cb, cc⟩ = parseLinesAux rest (i + 1) ⟨bks, cb, cc⟩ := by
    intro hst
    rw [parseLinesAux_cons, hst]
  refine ⟨?_, ?_, ?_⟩
  · rintro ⟨d, hd⟩ hcb
    simp only at hcb
    subst hcb
    have hl : l ≠ [] := by
      rintro rfl
      exact absurd hd (by simp [chapterMatchL, dropLit])
    apply hstep
    simp only [parseStep, if_neg hl, bookMatchL_of_chapter l d hd, hd,
      verseMatchL_of_chapter l d hd]
  · rintro ⟨d, g, hv⟩ hcc
    simp only at hcc
    subst hcc
    have hl : l ≠ [] := by
      rintro rfl
      exact absurd hv (by simp [verseMatchL])
    apply hstep
    cases cb with
    | none =>
      simp only [parseStep, if_neg hl, bookMatchL_of_verse l d g hv,
        chapterMatchL_of_verse l d g hv, hv]
    | some bk =>
      simp only [parseStep, if_neg hl, bookMatchL_of_verse l d g hv,
        chapterMatchL_of_verse l d g hv, hv]
  · intro h1 h2 h3
    by_cases hl : l = []
    · apply hstep
      rw [hl]
      rfl
    · apply hstep
      simp only [parseStep, if_neg hl, h1, h2, h3]

/-- Witness for `parse_lenient`: an orphan chapter heading at the start
of the document is skipped and parsing continues with the next line. -/
theorem parse_lenient_witness :
    parseLinesAux ["## Chapter 1".data, "1. hi".data] 0 initState =
      parseLinesAux ["1. hi".data] 1 initState :=
  (parse_lenient "## Chapter 1".data 0 initState ["1. hi".data]).1
    ⟨['1'], by decide⟩ rfl

/-! ### The source-line invariant of the parser -/

/-- The line `l` is a verse line whose digit group and trimmed text
give exactly the verse `v`. -/
def definesVerse (l : List Char) (v : BibleVerse) : Prop :=
  ∃ d g, verseMatchL l = some (d, g) ∧ v.verse = natOfDigits d ∧
    v.text = String.mk (trimJS g)

/-- The verse `v` is stored somewhere in the index. -/
def VerseInBooks (books : List (String × BibleBook)) (v : BibleVerse) : Prop :=
  ∃ bk b, mapGet bk books = some b ∧
    ∃ cn c, mapGet cn b.chapters = some c ∧
      ∃ vn, mapGet vn c.verses = some v

/-- Every verse reachable in the state points back, via its `line`
field, at a line of `lines0` that defines it. -/
def LinesInv (lines0 : List (List Char)) (st : ParseState) : Prop :=
  ∀ v : BibleVerse, VerseInBooks st.books v →
    ∃ l, lines0.get? v.line = some l ∧ definesVerse l v

theorem mapGet_mapSet {α β : Type} [DecidableEq α] (k q : α) (x : β) :
    ∀ m : List (α × β), mapGet q (mapSet k x m) = if k = q then some x else mapGet q m
  | [] => by
    by_cases h : k = q
    · simp [mapGet, mapSet, h]
    · simp [mapGet, mapSet, h]
  | (k1, v1) :: rest => by
    by_cases hk : k1 = k
    · subst hk
      rw [mapSet, if_pos rfl]
      by_cases hq : k1 = q
      · subst hq
        simp [mapGet]
      · simp [mapGet, hq]
    · rw [mapSet, if_neg hk]
      by_cases hq : k1 = q
      · subst hq
        have hkq : k ≠ k1 := fun h => hk h.symm
        simp [mapGet, hkq]
      · simp [mapGet, hq, mapGet_mapSet k q x rest]

theorem mapGet_mapModify {α β : Type} [DecidableEq α] (k q : α) (f : β → β) :
    ∀ m : List (α × β),
      mapGet q (mapModify k f m) = if k = q then (mapGet q m).map f else mapGet q m
  | [] => by
    by_cases h : k = q
    · simp [mapGet, mapModify, h]
    · simp [mapGet, mapModify, h]
  | (k1, v1) :: rest => by
    by_cases hk : k1 = k
    · subst hk
      rw [mapModify, if_pos rfl]
      by_cases hq : k1 = q
      · subst hq
        simp [mapGet]
      · simp [mapGet, hq, mapGet_mapModify k1 q f rest]
    · rw [mapModify, if_neg hk]
      by_cases hq : k1 = q
      · subst hq
        have hkq : k ≠ k1 := fun h => hk h.symm
        simp [mapGet, hkq]
      · simp [mapGet, hq, mapGet_mapModify k q f rest]

theorem parseStep_inv (lines0 : List (List Char)) (l : List Char) (i : Nat)
    (st : ParseState) (hInv : LinesInv lines0 st) (hl : lines0.get? i = some l) :
    LinesInv lines0 (parseStep l i st) := by
  by_cases hnil : l = []
  · subst hnil
    simpa [parseStep] using hInv
  · cases hbm : bookMatchL l with
    | some g =>
      simp only [parseStep, if_neg hnil, hbm]
      intro v hv
      obtain ⟨bk, b, hb, cn, c, hc, vn, hvn⟩ := hv
      rw [mapGet_mapSet] at hb
      by_cases hkey : lowerStr (String.mk (trimJS g)) = bk
      · rw [if_pos hkey] at hb
        cases hb
        exact absurd hc (by simp [mapGet])
      · rw [if_neg hkey] at hb
        exact hInv v ⟨bk, b, hb, cn, c, hc, vn, hvn⟩
    | none =>
      cases hcm : chapterMatchL l with
      | some d =>
        cases hst : st.curBook with
        | none =>
          simp only [parseStep, if_neg hnil, hbm, hcm, hst,
            verseMatchL_of_chapter l d hcm]
          exact hInv
        | some bk0 =>
          simp only [parseStep, if_neg hnil, hbm, hcm, hst]
          intro v hv
          obtain ⟨bk, b, hb, cn, c, hc, vn, hvn⟩ := hv
          rw [mapGet_mapModify] at hb
          by_cases hkb : bk0 = bk
          · rw [if_pos hkb] at hb
            cases hb0 : mapGet bk st.books with
            | none =>
              rw [hb0] at hb
              exact absurd hb (by simp)
            | some b0 =>
              rw [hb0] at hb
              simp only [Option.map_some', Option.some.injEq] at hb
              rw [← hb] at hc
              simp only at hc
              rw [mapGet_mapSet] at hc
              by_cases hcn : natOfDigits d = cn
              · rw [if_pos hcn] at hc
                cases hc
                exact absurd hvn (by simp [mapGet])
              · rw [if_neg hcn] at hc
                exact hInv v ⟨bk, b0, hb0, cn, c, hc, vn, hvn⟩
          · rw [if_neg hkb] at hb
            exact hInv v ⟨bk, b, hb, cn, c, hc, vn, hvn⟩
      | none =>
        cases hvm : verseMatchL l with
        | none =>
          simp only [parseStep, if_neg hnil, hbm, hcm, hvm]
          exact hInv
        | some dg =>
          obtain ⟨d, g⟩ := dg
          cases hstb : st.curBook with
          | none =>
            simp only [parseStep, if_neg hnil, hbm, hcm, hvm, hstb]
            exact hInv
          | some bk0 =>
            cases hstc : st.curChap with
            | none =>
              simp only [parseStep, if_neg hnil, hbm, hcm, hvm, hstb, hstc]
              exact hInv
            | some cn0 =>
              simp only [parseStep, if_neg hnil, hbm, hcm, hvm, hstb, hstc]
              intro v hv
              obtain ⟨bk, b, hb, cn, c, hc, vn, hvn⟩ := hv
              rw [mapGet_mapModify] at hb
              by_cases hkb : bk0 = bk
              · rw [if_pos hkb] at hb
                cases hb0 : mapGet bk st.books with
                | none =>
                  rw [hb0] at hb
                  exact absurd hb (by simp)
                | some b0 =>
                  rw [hb0] at hb
                  simp only [Option.map_some', Option.some.injEq] at hb
                  rw [← hb] at hc
                  rw [mapGet_mapModify] at hc
                  by_cases hkc : cn0 = cn
                  · rw [if_pos hkc] at hc
                    cases hc0 : mapGet cn b0.chapters with
                    | none =>
                      rw [hc0] at hc
                      exact absurd hc (by simp)
                    | some c0 =>
                      rw [hc0] at hc
                      simp only [Option.map_some', Option.some.injEq] at hc
                      rw [← hc] at hvn
                      rw [mapGet_mapSet] at hvn
                      by_cases hkv : natOfDigits d = vn
                      · rw [if_pos hkv] at hvn
                        cases hvn
                        exact ⟨l, hl, d, g, hvm, rfl, rfl⟩
                      · rw [if_neg hkv] at hvn
                        exact hInv v ⟨bk, b0, hb0, cn, c0, hc0, vn, hvn⟩
                  · rw [if_neg hkc] at hc
                    exact hInv v ⟨bk, b0, hb0, cn, c, hc, vn, hvn⟩
              · rw [if_neg hkb] at hb
                exact hInv v ⟨bk, b, hb, cn, c, hc, vn, hvn⟩

theorem get?_append_cons {α : Type} :
    ∀ (pre : List α) (a : α) (post : List α),
      (pre ++ a :: post).get? pre.length = some a
  | [], _, _ => rfl
  | _ :: pre, a, post => get?_append_cons pre a post

theorem parseLinesAux_inv (lines0 : List (List Char)) :
    ∀ (ls pre : List (List Char)) (st : ParseState),
      lines0 = pre ++ ls → LinesInv lines0 st →
      LinesInv lines0 (parseLinesAux ls pre.length st)
  | [], _, _, _, hInv => hInv
  | l :: ls, pre, st, heq, hInv => by
    rw [parseLinesAux_cons]
    have hl : lines0.get? pre.length = some l := by
      rw [heq]
      exact get?_append_cons pre l ls
    have h2 := parseLinesAux_inv lines0 ls (pre ++ [l]) (parseStep l pre.length st)
      (by rw [heq]; simp)
      (parseStep_inv lines0 l pre.length st hInv hl)
    rwa [List.length_append, List.length_singleton] at h2

/-- Shared consequence of the parse-loop invariant: every verse of a
parsed index was created from the line of the document (split on
newlines) at its stored zero-based index. -/
theorem parse_verses_defined (doc : String) (v : BibleVerse)
    (hv : VerseInBooks (parse doc) v) :
    ∃ l, (splitLines doc.data).get? v.line = some l ∧ definesVerse l v := by
  have h0 : LinesInv (splitLines doc.data) initState := by
    intro w hw
    obtain ⟨bk, b, hb, _⟩ := hw
    exact absurd hb (by simp [mapGet, initState])
  exact parseLinesAux_inv (splitLines doc.data) (splitLines doc.data) [] initState rfl h0 v hv

/-- C3: in every parsed document, every stored verse's `line` field is
the zero-based index, in the document split on newlines, of a verse
line whose number and trimmed text are exactly the stored ones —
whatever the rest of the document looks like. -/
theorem verse_line_accurate :
    ∀ (doc : String) (v : BibleVerse), VerseInBooks (parse doc) v →
      ∃ l, (splitLines doc.data).get? v.line = some l ∧ definesVerse l v := by
  intro doc v hv
  exact parse_verses_defined doc v hv

/-- Witness for `verse_line_accurate`: the single verse of a three-line
document sits at line index 2. -/
theorem verse_line_accurate_witness :
    ∃ l, (splitLines ("# Beta\n## Chapter 1\n1. hello world" : String).data).get? 2 = some l ∧
      definesVerse l ⟨1, "hello world", 2⟩ :=
  verse_line_accurate "# Beta\n## Chapter 1\n1. hello world" ⟨1, "hello world", 2⟩
    ⟨"beta", ⟨"Beta", [(1, ⟨1, [(1, ⟨1, "hello world", 2⟩)]⟩)]⟩, by decide, 1,
      ⟨1, [(1, ⟨1, "hello world", 2⟩)]⟩, by decide, 1, by decide⟩

/-! ### Stored verse numbers and texts -/

theorem head?_dropWhile_not {p : Char → Bool} :
    ∀ (l : List Char) (c : Char), (l.dropWhile p).head? = some c → p c = false := by
  intro l
  induction l with
  | nil => intro c h; exact absurd h (by simp)
  | cons x xs ih =>
    intro c h
    by_cases hx : p x = true
    · rw [List.dropWhile_cons, if_pos hx] at h
      exact ih c h
    · rw [Bool.not_eq_true] at hx
      rw [List.dropWhile_cons, if_neg (by rw [hx]; exact Bool.false_ne_true)] at h
      have hxc : x = c := by simpa using h
      rw [← hxc]
      exact hx

theorem getLast?_dropWhile {p : Char → Bool} :
    ∀ (l : List Char) (c : Char), (l.dropWhile p).getLast? = some c → l.getLast? = some c := by
  intro l
  induction l with
  | nil => intro c h; exact h
  | cons x xs ih =>
    intro c h
    by_cases hx : p x = true
    · rw [List.dropWhile_cons, if_pos hx] at h
      have h2 := ih c h
      cases xs with
      | nil => exact absurd h2 (by simp)
      | cons y ys => rw [List.getLast?_cons_cons]; exact h2
    · rw [Bool.not_eq_true] at hx
      rw [List.dropWhile_cons, if_neg (by rw [hx]; exact Bool.false_ne_true)] at h
      exact h

theorem trimJS_ends (l : List Char) :
    (∀ c, (trimJS l).head? = some c → isSpaceJS c = false) ∧
    (∀ c, (trimJS l).getLast? = some c → isSpaceJS c = false) := by
  constructor
  · intro c h
    unfold trimJS at h
    rw [List.head?_reverse] at h
    have h2 := getLast?_dropWhile _ c h
    rw [List.getLast?_reverse] at h2
    exact head?_dropWhile_not l c h2
  · intro c h
    unfold trimJS at h
    rw [List.getLast?_reverse] at h
    exact head?_dropWhile_not _ c h

/-- Counterexample to C9 as stated: parsing the document whose third
line is `0.  ` (digit zero, dot, space, space) stores a verse whose
number is 0 — not positive — and whose trimmed text is empty. -/
theorem verse_pos_nonempty_cex :
    ∃ v : BibleVerse, VerseInBooks (parse "# B\n## Chapter 1\n0.  ") v ∧
      v.verse = 0 ∧ v.text = "" :=
  ⟨⟨0, "", 2⟩,
   ⟨"b", ⟨"B", [(1, ⟨1, [(0, ⟨0, "", 2⟩)]⟩)]⟩, by decide, 1,
     ⟨1, [(0, ⟨0, "", 2⟩)]⟩, by decide, 0, by decide⟩,
   rfl, rfl⟩

/-- C9 (amended): for every input document, every stored verse carries
a (possibly zero) natural verse number, and its text is stored trimmed:
it has no leading and no trailing JavaScript whitespace (it may be
empty). -/
theorem verse_text_trimmed :
    ∀ (doc : String) (v : BibleVerse), VerseInBooks (parse doc) v →
      (∀ c, v.text.data.head? = some c → isSpaceJS c = false) ∧
      (∀ c, v.text.data.getLast? = some c → isSpaceJS c = false) := by
  intro doc v hv
  obtain ⟨l, _, d, g, _, _, htext⟩ := parse_verses_defined doc v hv
  rw [htext]
  exact trimJS_ends g

/-- Witness for `verse_text_trimmed`: the verse stored for
`"1.   hello world  "` has the fully trimmed text `"hello world"`. -/
theorem verse_text_trimmed_witness :
    (∀ c, ("hello world" : String).data.head? = some c → isSpaceJS c = false) ∧
    (∀ c, ("hello world" : String).data.getLast? = some c → isSpaceJS c = false) :=
  verse_text_trimmed "# Beta\n## Chapter 1\n1.   hello world  " ⟨1, "hello world", 2⟩
    ⟨"beta", ⟨"Beta", [(1, ⟨1, [(1, ⟨1, "hello world", 2⟩)]⟩)]⟩, by decide, 1,
      ⟨1, [(1, ⟨1, "hello world", 2⟩)]⟩, by decide, 1, by decide⟩
